import Mathlib

/-!
Verification development for the Telegram payment-tracking bot
(`currency_extractor.py`, `currency_detector.py`, `database.py`).

The heart of the repository is `extract_amounts`, which runs Python
`re.findall` over two fixed lists of regular-expression patterns (USD and
Cambodian Riel) and keeps, per currency, the largest successfully parsed
candidate.  We shallowly embed the regex dialect actually used by those
patterns: literal strings matched case-insensitively (`re.IGNORECASE` with
CPython's Unicode folding: simple lowercase mapping plus the extra
fold-equivalences that touch the pattern letters, namely KELVIN SIGN ↔ k,
dotless/dotted ı İ ↔ i and LATIN SMALL LETTER LONG S ↔ s), the class `\d`
(all Unicode decimal digits, category Nd) and the class `\s` (Unicode
whitespace as CPython's `str.isspace`), concatenation, alternation (only
for the optional `s` of `dollars?`), greedy `?`, `*`, `+` and bounded
repetition, and a single capturing group per pattern.  Matching is
leftmost, greedy and backtracking, exactly as in CPython's `re` engine; a
matcher returns the full list of alternatives in backtracking preference
order and the scanner takes the head.  Python `float` values are modelled
in two layers: the exact rational value of the parsed decimal (used by the
main extractors: IEEE rounding of a finite decimal is monotone and maps
integers ≥ 1 to integers, so the comparisons and the integrality and
non-negativity facts proved here are unaffected for finite values), and an
overflow-aware layer `PyFloat` that additionally models the saturation of
`float()` to infinity at the IEEE double overflow threshold, which is
where the exact layer and CPython genuinely part ways.
-/

namespace Bot

/-- ASCII uppercase test, used to model `re.IGNORECASE` on the pattern letters. -/
def isUpA (c : Char) : Bool := decide ('A' ≤ c) && decide (c ≤ 'Z')

/-- ASCII lowercase test. -/
def isLoA (c : Char) : Bool := decide ('a' ≤ c) && decide (c ≤ 'z')

/-- Lowercase counterpart of an ASCII uppercase letter. -/
def loOf (c : Char) : Char := Char.ofNat (c.toNat + 32)

/-- Uppercase counterpart of an ASCII lowercase letter. -/
def upOf (c : Char) : Char := Char.ofNat (c.toNat - 32)

/-- ASCII lowercase of a pattern character (the pattern literals are ASCII
and the Riel sign, so this is the simple lowercase mapping on them). -/
def lowA (c : Char) : Char := if isUpA c then loOf c else c

/-- Case-insensitive character match of input `x` against pattern character
`c`, as CPython `re.IGNORECASE` behaves on `str`: the literal is taken to
its simple lowercase `l` and `x` matches when its own simple lowercase is
`l` or when the fold-equivalence table applies.  For the characters
occurring in this repository's patterns that amounts to: `k` also matches
KELVIN SIGN (U+212A), `i` also matches İ (U+0130, whose simple lowercase
is `i`) and ı (U+0131, via the equivalence table), `s` also matches ſ
(U+017F, via the equivalence table); every other letter matches exactly
its two ASCII cases, and non-letters match only themselves. -/
def ciEq (x c : Char) : Bool :=
  let l := lowA c
  if l = 'k' then x == 'k' || x == 'K' || x == '\u212A'
  else if l = 'i' then x == 'i' || x == 'I' || x == '\u0130' || x == '\u0131'
  else if l = 's' then x == 's' || x == 'S' || x == '\u017F'
  else if isLoA l then x == l || x == upOf l
  else x == c

/-- The code points CPython's `str.isspace` (and hence `\s` and `str.strip`)
accepts, besides the contiguous run U+2000..U+200A. -/
def pySpaceCodes : List Nat :=
  [9, 10, 11, 12, 13, 28, 29, 30, 31, 32, 0x85, 0xA0, 0x1680, 0x2028, 0x2029,
    0x202F, 0x205F, 0x3000]

/-- The whitespace class `\s` of the Python patterns (Unicode whitespace). -/
def isSpacePy (c : Char) : Bool :=
  pySpaceCodes.any (fun n => c.toNat == n) || (0x2000 ≤ c.toNat && c.toNat ≤ 0x200A)

/-- First code points of the decade runs of Unicode category Nd (Unicode
15.0, as shipped with current CPython): every decimal-digit character is
`start + v` for one of these starts and a digit value `v ≤ 9`.  This is
the class Python `\d` matches on `str` and the digits `float()`/`int()`
accept. -/
def ndStarts : List Nat :=
  [0x30, 0x660, 0x6F0, 0x7C0, 0x966, 0x9E6, 0xA66, 0xAE6, 0xB66, 0xBE6,
    0xC66, 0xCE6, 0xD66, 0xDE6, 0xE50, 0xED0, 0xF20, 0x1040, 0x1090, 0x17E0,
    0x1810, 0x1946, 0x19D0, 0x1A80, 0x1A90, 0x1B50, 0x1BB0, 0x1C40, 0x1C50,
    0xA620, 0xA8D0, 0xA900, 0xA9D0, 0xA9F0, 0xAA50, 0xABF0, 0xFF10, 0x104A0,
    0x10D30, 0x11066, 0x110F0, 0x11136, 0x111D0, 0x112F0, 0x11450, 0x114D0,
    0x11650, 0x116C0, 0x11730, 0x118E0, 0x11950, 0x11C50, 0x11D50, 0x11DA0,
    0x11F50, 0x16A60, 0x16AC0, 0x16B50, 0x1D7CE, 0x1D7D8, 0x1D7E2, 0x1D7EC,
    0x1D7F6, 0x1E140, 0x1E2F0, 0x1E4F0, 0x1E950, 0x1FBF0]

/-- The digit class `\d` of Python `re` on `str`: Unicode category Nd. -/
def isDigitPy (c : Char) : Bool :=
  ndStarts.any (fun b => b ≤ c.toNat && c.toNat ≤ b + 9)

/-- The decimal value of a Unicode digit, as `float()`/`int()` read it. -/
def digitValPy (c : Char) : Nat :=
  match ndStarts.find? (fun b => b ≤ c.toNat && c.toNat ≤ b + 9) with
  | some b => c.toNat - b
  | none => 0

/-- Python `str.strip()` (ASCII whitespace): drop leading and trailing blanks. -/
def pyStrip (s : List Char) : List Char :=
  (((s.dropWhile isSpacePy).reverse).dropWhile isSpacePy).reverse

/-- Abstract syntax of the regex fragment used by the two pattern lists.
`str w` is a literal word matched case-insensitively; `group` is the single
capturing group each pattern contains. -/
inductive RE : Type where
  | str : List Char → RE
  | digit : RE
  | space : RE
  | cat : RE → RE → RE
  | alt : RE → RE → RE
  | star : RE → RE
  | group : RE → RE
deriving DecidableEq

/-- The empty regex (matches the empty string). -/
def eps : RE := .str []

/-- Greedy `e?`: try `e` first, then the empty match — Python's preference order. -/
def opt (a : RE) : RE := .alt a eps

/-- Greedy `e+` as `e e*`. -/
def plus (a : RE) : RE := .cat a (.star a)

/-- Exact repetition `e{n}` as an `n`-fold concatenation. -/
def reps (a : RE) : Nat → RE
  | 0 => eps
  | n + 1 => .cat a (reps a n)

/-- Greedy bounded repetition `e{0,n}`: more copies are preferred. -/
def upTo (a : RE) : Nat → RE
  | 0 => eps
  | n + 1 => .alt (.cat a (upTo a n)) eps

/-- A match alternative: characters consumed, the capture of the group (if the
group participated), and the remaining input. -/
abbrev Res : Type := List Char × Option (List Char) × List Char

/-- Keep the first capture when combining two match halves (each pattern here
has exactly one group, so at most one side is `some`). -/
def omerge : Option (List Char) → Option (List Char) → Option (List Char)
  | some a, _ => some a
  | none, b => b

/-- Match a literal word case-insensitively against the front of the input,
returning the consumed characters and the rest. -/
def ciPref : List Char → List Char → Option (List Char × List Char)
  | [], s => some ([], s)
  | _ :: _, [] => none
  | c :: w, x :: s =>
    if ciEq x c then
      match ciPref w s with
      | some (cs, r) => some (x :: cs, r)
      | none => none
    else none

/-- Match a single character belonging to a class. -/
def oneChar (f : Char → Bool) : List Char → List Res
  | [] => []
  | x :: s => if f x then [([x], none, s)] else []

/-- Greedy iteration of a matcher: all ways to run it `≤ n` times, longest
first, never repeating an empty match (CPython's repeat engine likewise
stops on an empty body match).  Every star body in the embedded patterns
consumes at least one character, so `n` = input length is always enough. -/
def starN (m : List Char → List Res) : Nat → List Char → List Res
  | 0, s => [([], none, s)]
  | n + 1, s =>
    (((m s).filter (fun r => !r.1.isEmpty)).flatMap (fun r =>
      (starN m n r.2.2).map (fun q => (r.1 ++ q.1, omerge r.2.1 q.2.1, q.2.2)))) ++
    [([], none, s)]

/-- Fuelled backtracking matcher: all match alternatives of `re` at the start
of `s`, in CPython preference order (leftmost, greedy).  The fuel only
bounds the nesting depth of the regex and is chosen `≥ RE.depth re` by
`mt`, so the `0` case is never reached. -/
def mtF : Nat → RE → List Char → List Res
  | 0, _, _ => []
  | _ + 1, .str w, s =>
    match ciPref w s with
    | some (cs, r) => [(cs, none, r)]
    | none => []
  | _ + 1, .digit, s => oneChar isDigitPy s
  | _ + 1, .space, s => oneChar isSpacePy s
  | n + 1, .cat a b, s =>
    (mtF n a s).flatMap (fun ra =>
      (mtF n b ra.2.2).map (fun rb => (ra.1 ++ rb.1, omerge ra.2.1 rb.2.1, rb.2.2)))
  | n + 1, .alt a b, s => mtF n a s ++ mtF n b s
  | n + 1, .star a, s => starN (mtF n a) s.length s
  | n + 1, .group a, s => (mtF n a s).map (fun r => (r.1, some r.1, r.2.2))

/-- Structural depth of a regex, an adequate fuel for `mtF`. -/
def RE.depth : RE → Nat
  | .str _ => 1
  | .digit => 1
  | .space => 1
  | .cat a b => 1 + max a.depth b.depth
  | .alt a b => 1 + max a.depth b.depth
  | .star a => 1 + a.depth
  | .group a => 1 + a.depth

/-- Match `re` at the start of `s`, with adequate fuel. -/
def mt (re : RE) (s : List Char) : List Res := mtF re.depth re s

/-- The value `re.findall` reports for one match: the group capture, or the
whole match for a groupless pattern (every embedded pattern has a mandatory
group, so the fallback never fires). -/
def capOf (r : Res) : List Char :=
  match r.2.1 with
  | some g => g
  | none => r.1

/-- Scanner behind `re.findall`: try to match at each position, left to
right; on a match report its capture and continue after it (after one
character for an empty match, as in Python 3.7+).  Fuel `≥ s.length + 1`
is adequate since every step consumes or skips a character. -/
def findAllAux (re : RE) : Nat → List Char → List (List Char)
  | 0, _ => []
  | _ + 1, [] =>
    match mt re [] with
    | [] => []
    | r :: _ => [capOf r]
  | n + 1, x :: s₂ =>
    match mt re (x :: s₂) with
    | [] => findAllAux re n s₂
    | r :: _ =>
      capOf r :: (if r.1.isEmpty then findAllAux re n s₂ else findAllAux re n r.2.2)

/-- `re.findall(pattern, s)` for a single-group pattern: the list of captures
of the non-overlapping leftmost matches. -/
def findAll (re : RE) (s : List Char) : List (List Char) :=
  findAllAux re (s.length + 1) s

/-- Python `match.replace(",", "")`. -/
def stripCommas (l : List Char) : List Char := l.filter (fun c => c != ',')

/-- Numeric value of a digit string (most significant first), reading each
Unicode digit at its decimal value, as `float()`/`int()` do. -/
def digitsVal (l : List Char) : Nat :=
  l.foldl (fun a c => 10 * a + digitValPy c) 0

/-- The exact value Python `float(...)` parses, restricted to the comma-free
shapes reachable from the patterns: an optional integer part, an optional
dot, an optional fraction part of Unicode digits, with at least one digit
somewhere (`"1."` and `".5"` parse, `""` and `"."` do not); anything else
raises `ValueError`, modelled as `none`.  The value is the exact decimal;
the IEEE rounding and overflow of the runtime `float` are layered on top
by `PyFloat` where they matter (rounding is monotone and preserves
integrality and non-negativity, so the facts proved over this exact layer
transfer to finite runtime values). -/
def parseFloat (l : List Char) : Option ℚ :=
  let ip := l.takeWhile (fun c => c != '.')
  let rest := l.dropWhile (fun c => c != '.')
  match rest with
  | [] =>
    if !ip.isEmpty && ip.all isDigitPy then some (digitsVal ip : ℚ) else none
  | _ :: fp =>
    if (ip.all isDigitPy && fp.all isDigitPy) && (!ip.isEmpty || !fp.isEmpty) then
      some ((digitsVal ip : ℚ) + (digitsVal fp : ℚ) / (10 : ℚ) ^ fp.length)
    else none

/-- `float(match.replace(",", ""))`, the candidate value of one capture, in
the exact layer. -/
def parseCand (cap : List Char) : Option ℚ := parseFloat (stripCommas cap)

/-- A CPython `float` as far as the extractor can observe it: a finite value,
carried as the exact rational of the parsed decimal (IEEE round-to-nearest
of a finite decimal is monotone and maps integers to integers, so the
comparisons, signs and integrality observed here coincide with the rounded
runtime value), or positive infinity, which `float()` returns for decimals
at or above the IEEE double overflow threshold.  NaN and negative values
are unreachable from the patterns. -/
inductive PyFloat : Type where
  | fin : ℚ → PyFloat
  | inf : PyFloat
deriving DecidableEq

/-- The exact IEEE-754 double round-to-nearest overflow boundary: a decimal
whose value is at least `2^1024 - 2^970` converts to `inf`. -/
def ovfBound : ℚ := ((2 ^ 1024 - 2 ^ 970 : ℕ) : ℚ)

/-- Python `<` on the reachable floats. -/
def PyFloat.ltB : PyFloat → PyFloat → Bool
  | .fin a, .fin b => decide (a < b)
  | .fin _, .inf => true
  | .inf, _ => false

/-- `float(match.replace(",", ""))` in the overflow-aware layer: as
`parseCand`, but saturating to `inf` at the overflow threshold. -/
def parseCandF (cap : List Char) : Option PyFloat :=
  match parseFloat (stripCommas cap) with
  | none => none
  | some v => some (if ovfBound ≤ v then .inf else .fin v)

/-- Shorthand for embedding a pattern literal. -/
def lit (s : String) : RE := .str s.data

/-- The numeral `\d{1,3}`. -/
def d13 : RE := .cat .digit (upTo .digit 2)

/-- The grouping tail `(?:,\d{3})*`. -/
def commaGroups : RE := .star (.cat (.str [',']) (reps .digit 3))

/-- The fraction tail `(?:\.\d{2})?`. -/
def frac2 : RE := opt (.cat (.str ['.']) (reps .digit 2))

/-- `\d{1,3}(?:,\d{3})*(?:\.\d{2})?`. -/
def num1 : RE := .cat d13 (.cat commaGroups frac2)

/-- `\d{1,3}(?:,\d{3})*`. -/
def numC : RE := .cat d13 commaGroups

/-- `\d+`. -/
def numP : RE := plus .digit

/-- `\d+(?:\.\d{2})?`. -/
def num2 : RE := .cat numP frac2

/-- `\s+`. -/
def sp1 : RE := plus .space

/-- `\s*`. -/
def sp0 : RE := .star .space

namespace CE

/-- The `usd_patterns` list of `currency_extractor.extract_amounts`
(currency_extractor.py lines 37-55), in source order. -/
def usd_patterns : List RE := [
  .cat (lit "$") (.group num1),
  .cat (.group num1) (lit "$"),
  .cat (lit "$") (.group num2),
  .cat (.group num2) (lit "$"),
  .cat (lit "$") (.cat (.group num2) (.cat sp1 (.cat (lit "paid") (.cat sp1 (lit "by"))))),
  .cat (lit "paid") (.cat sp1 (.cat (lit "$") (.group num2))),
  .cat (lit "Received") (.cat sp1 (.cat (lit "$") (.group num2))),
  .cat (lit "Transfer") (.cat sp1 (.cat (lit "$") (.group num2))),
  .cat (.group num2) (.cat sp1 (lit "USD")),
  .cat (.group num2) (.cat sp1 (.cat (lit "dollar") (opt (lit "s")))),
  .cat (lit "USD") (.cat sp1 (.group num2)),
  .cat (lit "dollar") (.cat (opt (lit "s")) (.cat sp1 (.group num2)))]

/-- The `riel_patterns` list of `currency_extractor.extract_amounts`
(currency_extractor.py lines 70-80), in source order. -/
def riel_patterns : List RE := [
  .cat (lit "៛") (.group numC),
  .cat (.group numC) (lit "៛"),
  .cat (lit "៛") (.group numP),
  .cat (.group numP) (lit "៛"),
  .cat (.group numC) (.cat sp1 (lit "riel")),
  .cat (.group numC) (.cat sp1 (lit "KHR")),
  .cat (lit "riel") (.cat sp1 (.group numC)),
  .cat (lit "KHR") (.cat sp1 (.group numC)),
  .cat (lit "Received") (.cat sp1 (.cat (.group numC) (.cat sp1 (lit "KHR"))))]

/-- The per-currency accumulation loop of `currency_extractor.extract_amounts`:
for each pattern, for each `findall` capture, strip commas, parse, and keep
the value if it beats the running best (`if amount > usd_amount`); parse
failures are skipped (`except ValueError: continue`). -/
def bestOver (pats : List RE) (s : List Char) : ℚ :=
  pats.foldl (fun acc p =>
    (findAll p s).foldl (fun a cap =>
      match parseCand cap with
      | some amount => if amount > a then amount else a
      | none => a) acc) 0

/-- `currency_extractor.extract_amounts` (currency_extractor.py lines 15-101):
strip the text, run the USD loop and the Riel loop, return the pair. -/
def extract_amounts (text : String) : ℚ × ℚ :=
  let s := pyStrip text.data
  (bestOver usd_patterns s, bestOver riel_patterns s)

/-- `bestOver` in the overflow-aware layer: the same accumulation loop with
`float()` saturating to `inf` and Python `>` on floats. -/
def bestOverF (pats : List RE) (s : List Char) : PyFloat :=
  pats.foldl (fun acc p =>
    (findAll p s).foldl (fun a cap =>
      match parseCandF cap with
      | some amount => if PyFloat.ltB a amount then amount else a
      | none => a) acc) (.fin 0)

/-- `currency_extractor.extract_amounts` in the overflow-aware layer. -/
def extract_amounts_ieee (text : String) : PyFloat × PyFloat :=
  let s := pyStrip text.data
  (bestOverF usd_patterns s, bestOverF riel_patterns s)

end CE

namespace CD

/-- The `self.usd_patterns` list of `CurrencyDetector.__init__`
(currency_detector.py lines 17-37), in source order. -/
def usd_patterns : List RE := [
  .cat (lit "$") (.group num1),
  .cat (.group num1) (lit "$"),
  .cat (lit "$") (.group num2),
  .cat (.group num2) (lit "$"),
  .cat (.group num1) (.cat sp0 (lit "USD")),
  .cat (.group num1) (.cat sp0 (.cat (lit "dollar") (opt (lit "s")))),
  .cat (lit "USD") (.cat sp0 (.group num1)),
  .cat (lit "dollar") (.cat (opt (lit "s")) (.cat sp0 (.group num1))),
  .cat (lit "paid") (.cat sp0 (.cat (lit "$") (.group num1))),
  .cat (lit "received") (.cat sp0 (.cat (lit "$") (.group num1))),
  .cat (lit "transfer") (.cat sp0 (.cat (lit "$") (.group num1))),
  .cat (lit "$") (.cat (.group num1) (.cat sp0 (lit "paid")))]

/-- The `self.riel_patterns` list of `CurrencyDetector.__init__`
(currency_detector.py lines 40-59), in source order. -/
def riel_patterns : List RE := [
  .cat (lit "៛") (.group numC),
  .cat (.group numC) (lit "៛"),
  .cat (lit "៛") (.group numP),
  .cat (.group numP) (lit "៛"),
  .cat (.group numC) (.cat sp0 (lit "riel")),
  .cat (.group numC) (.cat sp0 (lit "KHR")),
  .cat (lit "riel") (.cat sp0 (.group numC)),
  .cat (lit "KHR") (.cat sp0 (.group numC)),
  .cat (lit "paid") (.cat sp0 (.cat (lit "៛") (.group numC))),
  .cat (lit "received") (.cat sp0 (.cat (lit "៛") (.group numC))),
  .cat (lit "៛") (.cat (.group numC) (.cat sp0 (lit "paid")))]

/-- `CurrencyDetector._extract_usd` / `_extract_riel` (currency_detector.py
lines 98-132): collect, in pattern order, every capture that strips, parses
and is strictly positive. -/
def collect (pats : List RE) (s : List Char) : List ℚ :=
  pats.foldl (fun amounts p =>
    (findAll p s).foldl (fun ams cap =>
      match parseCand cap with
      | some amount => if amount > 0 then ams ++ [amount] else ams
      | none => ams) amounts) []

/-- The `CurrencyDetector` class: its state is the two pattern lists built in
`__init__`; `extract_amounts` reads them and mutates nothing. -/
structure CurrencyDetector : Type where
  usd_patterns : List RE
  riel_patterns : List RE
deriving DecidableEq

/-- The module-level `detector = CurrencyDetector()` instance
(currency_detector.py line 160). -/
def detector : CurrencyDetector := ⟨usd_patterns, riel_patterns⟩

/-- Python `max(amounts) if amounts else 0.0`, the per-currency resolution in
`CurrencyDetector.extract_amounts` (currency_detector.py lines 83-90). -/
def pyMax : List ℚ → ℚ
  | [] => 0
  | h :: t => t.foldl max h

/-- `CurrencyDetector.extract_amounts` (currency_detector.py lines 61-96):
empty text short-circuits to `(0, 0)`; otherwise strip, collect the
positive candidates per currency, and take Python `max` of each nonempty
list (`0.0` when the list is empty). -/
def CurrencyDetector.extract_amounts (d : CurrencyDetector) (text : String) : ℚ × ℚ :=
  if text = "" then (0, 0)
  else
    let s := pyStrip text.data
    let usd_amounts := collect d.usd_patterns s
    let riel_amounts := collect d.riel_patterns s
    (pyMax usd_amounts, pyMax riel_amounts)

/-- The module-level convenience function `extract_amounts`
(currency_detector.py lines 162-164). -/
def extract_amounts (text : String) : ℚ × ℚ :=
  detector.extract_amounts text

/-- `collect` in the overflow-aware layer. -/
def collectF (pats : List RE) (s : List Char) : List PyFloat :=
  pats.foldl (fun amounts p =>
    (findAll p s).foldl (fun ams cap =>
      match parseCandF cap with
      | some amount => if PyFloat.ltB (.fin 0) amount then ams ++ [amount] else ams
      | none => ams) amounts) []

/-- `pyMax` in the overflow-aware layer (Python `max` keeps the running value
on ties and replaces it on strict `>`). -/
def pyMaxF : List PyFloat → PyFloat
  | [] => .fin 0
  | h :: t => t.foldl (fun a b => if PyFloat.ltB a b then b else a) h

/-- `CurrencyDetector.extract_amounts` in the overflow-aware layer. -/
def extract_amounts_ieee (text : String) : PyFloat × PyFloat :=
  if text = "" then (.fin 0, .fin 0)
  else
    let s := pyStrip text.data
    (pyMaxF (collectF detector.usd_patterns s), pyMaxF (collectF detector.riel_patterns s))

end CD

namespace DB

/-- One row of the `payments` table (database.py lines 98-111); only the
columns the period queries read.  `payment_date` is a calendar date encoded
as days since 1970-01-01 (a Thursday). -/
structure PaymentRecord : Type where
  chat_id : Int
  usd_amount : ℚ
  riel_amount : ℚ
  payment_date : Int
deriving DecidableEq

/-- `get_cambodia_date` (database.py lines 21-23): the current date in the
fixed `Asia/Phnom_Penh` zone, which is UTC+7 year-round; the current
instant is a POSIX timestamp in seconds. -/
def get_cambodia_date (nowUtc : Int) : Int := (nowUtc + 7 * 3600).fdiv 86400

/-- The `period == 'week'` branch of `PaymentDatabase.get_totals`
(database.py lines 165-171): `week_start = cambodia_date - 7 days`, then
`SELECT COALESCE(SUM(usd_amount), 0), COALESCE(SUM(riel_amount), 0) WHERE
chat_id = %s AND payment_date >= week_start` over the table rows. -/
def get_totals_week (db : List PaymentRecord) (chat_id nowUtc : Int) : ℚ × ℚ :=
  let cambodia_date := get_cambodia_date nowUtc
  let week_start := cambodia_date - 7
  let rows := db.filter (fun r => r.chat_id == chat_id && decide (week_start ≤ r.payment_date))
  ((rows.map (fun r => r.usd_amount)).sum, (rows.map (fun r => r.riel_amount)).sum)

/-- Follows the spec's words, for comparison with `get_totals_week`: the week
period "aggregates exactly the records whose date is on or after the start
of the current week" — the start of the current calendar week (ISO, Monday
as first day; day 0 = 1970-01-01 was a Thursday, so Monday-aligned days
satisfy `d % 7 = 4`). -/
def specWeekStart (d : Int) : Int := d - (d + 3) % 7

/-- Follows the spec's words: sum exactly the records dated on or after the
start of the current week, the boundary computed in the fixed reporting
timezone. -/
def specWeekTotals (db : List PaymentRecord) (chat_id nowUtc : Int) : ℚ × ℚ :=
  let ws := specWeekStart (get_cambodia_date nowUtc)
  let rows := db.filter (fun r => r.chat_id == chat_id && decide (ws ≤ r.payment_date))
  ((rows.map (fun r => r.usd_amount)).sum, (rows.map (fun r => r.riel_amount)).sum)

end DB

/-! ### Basic soundness of the matcher -/

/-- Pointwise case-insensitive comparison of a consumed segment against a
pattern word. -/
def ciAll : List Char → List Char → Bool
  | [], [] => true
  | x :: xs, c :: cs => ciEq x c && ciAll xs cs
  | _, _ => false

theorem omerge_some {o₁ o₂ : Option (List Char)} {l : List Char}
    (h : omerge o₁ o₂ = some l) : o₁ = some l ∨ o₂ = some l := by
  cases o₁ with
  | some a => exact Or.inl (by simpa [omerge] using h)
  | none => exact Or.inr (by simpa [omerge] using h)

theorem ciPref_sound : ∀ (w s cs r : List Char), ciPref w s = some (cs, r) →
    cs ++ r = s ∧ ciAll cs w = true := by
  intro w
  induction w with
  | nil =>
    intro s cs r h
    simp only [ciPref, Option.some.injEq, Prod.mk.injEq] at h
    obtain ⟨h1, h2⟩ := h
    subst h1; subst h2
    exact ⟨rfl, rfl⟩
  | cons c w ih =>
    intro s cs r h
    cases s with
    | nil => simp [ciPref] at h
    | cons x s₂ =>
      by_cases hc : ciEq x c = true
      · rw [ciPref, if_pos hc] at h
        cases hm : ciPref w s₂ with
        | none => rw [hm] at h; exact absurd h (by simp)
        | some p =>
          obtain ⟨cs₂, r₂⟩ := p
          rw [hm] at h
          simp only [Option.some.injEq, Prod.mk.injEq] at h
          obtain ⟨hcs, hr⟩ := h
          obtain ⟨ha, hb⟩ := ih s₂ cs₂ r₂ hm
          subst hcs; subst hr
          refine ⟨by simp [ha], ?_⟩
          simp [ciAll, hc, hb]
      · rw [ciPref, if_neg hc] at h
        exact absurd h (by simp)

theorem oneChar_sound {f : Char → Bool} {s : List Char} {r : Res}
    (h : r ∈ oneChar f s) : ∃ x s₂, s = x :: s₂ ∧ f x = true ∧ r = ([x], none, s₂) := by
  cases s with
  | nil => simp [oneChar] at h
  | cons x s₂ =>
    by_cases hf : f x = true
    · simp only [oneChar, if_pos hf, List.mem_singleton] at h
      exact ⟨x, s₂, rfl, hf, h⟩
    · simp [oneChar, hf] at h

theorem starN_append {m : List Char → List Res}
    (hm : ∀ s r, r ∈ m s → r.1 ++ r.2.2 = s) :
    ∀ (n : Nat) (s : List Char) (r : Res), r ∈ starN m n s → r.1 ++ r.2.2 = s := by
  intro n
  induction n with
  | zero =>
    intro s r h
    simp only [starN, List.mem_singleton] at h
    subst h; rfl
  | succ n ih =>
    intro s r h
    simp only [starN, List.mem_append, List.mem_flatMap, List.mem_map, List.mem_filter,
      List.mem_singleton] at h
    rcases h with ⟨r₁, ⟨hr₁, _⟩, q, hq, rfl⟩ | h
    · have h1 := hm s r₁ hr₁
      have h2 := ih r₁.2.2 q hq
      simp only [List.append_assoc, h2, h1]
    · subst h; rfl

theorem mtF_append : ∀ (n : Nat) (re : RE) (s : List Char) (r : Res),
    r ∈ mtF n re s → r.1 ++ r.2.2 = s := by
  intro n
  induction n with
  | zero => intro re s r h; simp [mtF] at h
  | succ n ih =>
    intro re s r h
    cases re with
    | str w =>
      rw [mtF] at h
      cases hmc : ciPref w s with
      | none => rw [hmc] at h; simp at h
      | some p =>
        obtain ⟨cs, rest⟩ := p
        rw [hmc] at h
        simp only [List.mem_singleton] at h
        subst h
        exact (ciPref_sound w s cs rest hmc).1
    | digit =>
      rw [mtF] at h
      obtain ⟨x, s₂, hs, _, hr⟩ := oneChar_sound h
      subst hs; subst hr; rfl
    | space =>
      rw [mtF] at h
      obtain ⟨x, s₂, hs, _, hr⟩ := oneChar_sound h
      subst hs; subst hr; rfl
    | cat a b =>
      rw [mtF] at h
      simp only [List.mem_flatMap, List.mem_map] at h
      obtain ⟨ra, hra, rb, hrb, rfl⟩ := h
      have h1 := ih a s ra hra
      have h2 := ih b ra.2.2 rb hrb
      simp only [List.append_assoc, h2, h1]
    | alt a b =>
      rw [mtF] at h
      rcases List.mem_append.1 h with h | h
      · exact ih a s r h
      · exact ih b s r h
    | star a =>
      rw [mtF] at h
      exact starN_append (fun s r hr => ih a s r hr) s.length s r h
    | group a =>
      rw [mtF] at h
      simp only [List.mem_map] at h
      obtain ⟨ra, hra, rfl⟩ := h
      exact ih a s ra hra

theorem mt_append {re : RE} {s : List Char} {r : Res} (h : r ∈ mt re s) :
    r.1 ++ r.2.2 = s :=
  mtF_append re.depth re s r h

theorem mtF_str_sound : ∀ (n : Nat) (w s : List Char) (r : Res),
    r ∈ mtF n (.str w) s → ciAll r.1 w = true := by
  intro n w s r h
  cases n with
  | zero => simp [mtF] at h
  | succ n =>
    rw [mtF] at h
    cases hmc : ciPref w s with
    | none => rw [hmc] at h; simp at h
    | some p =>
      obtain ⟨cs, rest⟩ := p
      rw [hmc] at h
      simp only [List.mem_singleton] at h
      subst h
      exact (ciPref_sound w s cs rest hmc).2

theorem mtF_digit_sound : ∀ (n : Nat) (s : List Char) (r : Res),
    r ∈ mtF n .digit s → ∃ x, r.1 = [x] ∧ isDigitPy x = true := by
  intro n s r h
  cases n with
  | zero => simp [mtF] at h
  | succ n =>
    rw [mtF] at h
    obtain ⟨x, s₂, _, hf, hr⟩ := oneChar_sound h
    exact ⟨x, by rw [hr], hf⟩

/-! ### Mandatory subterms: every match of the whole pattern contains a match
of the subterm as a contiguous segment of its consumed characters. -/

/-- `mand t re` holds when every successful match of `re` necessarily runs a
successful match of the subterm `t`: `t` is `re` itself, an unavoidable side
of a concatenation chain, or unavoidable in both branches of an
alternation.  Optional and starred parts are never mandatory. -/
def mand (t : RE) : RE → Bool
  | .cat a b => (RE.cat a b == t) || mand t a || mand t b
  | .alt a b => (RE.alt a b == t) || (mand t a && mand t b)
  | .group a => (RE.group a == t) || mand t a
  | e => e == t

theorem mand_sound {t : RE} : ∀ (n : Nat) (re : RE) (s : List Char) (r : Res),
    mand t re = true → r ∈ mtF n re s →
    ∃ u p q, r.1 = p ++ u ++ q ∧ ∃ n₂ s₂ r₂, r₂ ∈ mtF n₂ t s₂ ∧ r₂.1 = u := by
  intro n
  induction n with
  | zero => intro re s r _ h; simp [mtF] at h
  | succ n ih =>
    intro re s r hmand h
    cases re with
    | cat a b =>
      rw [mand] at hmand
      rcases Bool.or_eq_true_iff.1 hmand with hmand | hb
      rcases Bool.or_eq_true_iff.1 hmand with hself | ha
      · have ht : RE.cat a b = t := by simpa using hself
        subst ht
        exact ⟨r.1, [], [], by simp, n + 1, s, r, h, rfl⟩
      · rw [mtF] at h
        simp only [List.mem_flatMap, List.mem_map] at h
        obtain ⟨ra, hra, rb, hrb, rfl⟩ := h
        obtain ⟨u, p, q, hu, hrest⟩ := ih a s ra ha hra
        exact ⟨u, p, q ++ rb.1, by simp [hu, List.append_assoc], hrest⟩
      · rw [mtF] at h
        simp only [List.mem_flatMap, List.mem_map] at h
        obtain ⟨ra, hra, rb, hrb, rfl⟩ := h
        obtain ⟨u, p, q, hu, hrest⟩ := ih b ra.2.2 rb hb hrb
        exact ⟨u, ra.1 ++ p, q, by simp [hu, List.append_assoc], hrest⟩
    | alt a b =>
      rw [mand] at hmand
      rcases Bool.or_eq_true_iff.1 hmand with hself | hab
      · have ht : RE.alt a b = t := by simpa using hself
        subst ht
        exact ⟨r.1, [], [], by simp, n + 1, s, r, h, rfl⟩
      · obtain ⟨ha, hb⟩ := Bool.and_eq_true_iff.1 hab
        rw [mtF] at h
        rcases List.mem_append.1 h with h | h
        · exact ih a s r ha h
        · exact ih b s r hb h
    | group a =>
      rw [mand] at hmand
      rcases Bool.or_eq_true_iff.1 hmand with hself | ha
      · have ht : RE.group a = t := by simpa using hself
        subst ht
        exact ⟨r.1, [], [], by simp, n + 1, s, r, h, rfl⟩
      · rw [mtF] at h
        simp only [List.mem_map] at h
        obtain ⟨ra, hra, rfl⟩ := h
        exact ih a s ra ha hra
    | str w =>
      have ht : RE.str w = t := by simpa [mand] using hmand
      subst ht
      exact ⟨r.1, [], [], by simp, n + 1, s, r, h, rfl⟩
    | digit =>
      have ht : RE.digit = t := by simpa [mand] using hmand
      subst ht
      exact ⟨r.1, [], [], by simp, n + 1, s, r, h, rfl⟩
    | space =>
      have ht : RE.space = t := by simpa [mand] using hmand
      subst ht
      exact ⟨r.1, [], [], by simp, n + 1, s, r, h, rfl⟩
    | star a =>
      have ht : RE.star a = t := by simpa [mand] using hmand
      subst ht
      exact ⟨r.1, [], [], by simp, n + 1, s, r, h, rfl⟩

/-! ### Soundness of the findall scanner -/

theorem findAllAux_sound {re : RE} : ∀ (n : Nat) (s cap : List Char),
    cap ∈ findAllAux re n s →
    ∃ s₀ r, (∃ p, s = p ++ s₀) ∧ r ∈ mt re s₀ ∧ cap = capOf r := by
  intro n
  induction n with
  | zero => intro s cap h; simp [findAllAux] at h
  | succ n ih =>
    intro s cap h
    cases s with
    | nil =>
      rw [findAllAux] at h
      cases hmt : mt re [] with
      | nil => rw [hmt] at h; simp at h
      | cons r rs =>
        rw [hmt] at h
        have hr0 : r ∈ mt re [] := by rw [hmt]; exact List.mem_cons_self r rs
        simp only [List.mem_singleton] at h
        exact ⟨[], r, ⟨[], rfl⟩, hr0, h⟩
    | cons x s₂ =>
      rw [findAllAux] at h
      cases hmt : mt re (x :: s₂) with
      | nil =>
        rw [hmt] at h
        obtain ⟨s₀, r, ⟨p, hp⟩, hr, hc⟩ := ih s₂ cap h
        exact ⟨s₀, r, ⟨x :: p, by simp [hp]⟩, hr, hc⟩
      | cons r rs =>
        rw [hmt] at h
        have hr0 : r ∈ mt re (x :: s₂) := by rw [hmt]; exact List.mem_cons_self r rs
        rcases List.mem_cons.1 h with rfl | h₂
        · exact ⟨x :: s₂, r, ⟨[], rfl⟩, hr0, rfl⟩
        · by_cases he : r.1.isEmpty = true
          · rw [if_pos he] at h₂
            obtain ⟨s₀, r₂, ⟨p, hp⟩, hr₂, hc⟩ := ih s₂ cap h₂
            exact ⟨s₀, r₂, ⟨x :: p, by simp [hp]⟩, hr₂, hc⟩
          · rw [if_neg he] at h₂
            obtain ⟨s₀, r₂, ⟨p, hp⟩, hr₂, hc⟩ := ih r.2.2 cap h₂
            have hsplit : r.1 ++ r.2.2 = x :: s₂ := mt_append hr0
            exact ⟨s₀, r₂, ⟨r.1 ++ p, by rw [← hsplit, hp, List.append_assoc]⟩, hr₂, hc⟩

theorem findAll_sound {re : RE} {s cap : List Char} (h : cap ∈ findAll re s) :
    ∃ s₀ r, (∃ p, s = p ++ s₀) ∧ r ∈ mt re s₀ ∧ cap = capOf r :=
  findAllAux_sound (s.length + 1) s cap h

theorem findAll_eq_nil {re : RE} {s : List Char}
    (h : ∀ s₀ r, (∃ p, s = p ++ s₀) → r ∈ mt re s₀ → False) :
    findAll re s = [] := by
  cases hf : findAll re s with
  | nil => rfl
  | cons c cs =>
    have hc : c ∈ findAll re s := by rw [hf]; exact List.mem_cons_self c cs
    obtain ⟨s₀, r, hsfx, hr, _⟩ := findAll_sound hc
    exact absurd hr (fun hr => h s₀ r hsfx hr)

/-! ### Case-insensitive substring search, used to state the currency-marker
hypotheses of the independence claim. -/

/-- Case-insensitive match of the pattern word `w` against the front of `s`. -/
def ciPrefB : List Char → List Char → Bool
  | [], _ => true
  | _ :: _, [] => false
  | c :: w, x :: s => ciEq x c && ciPrefB w s

/-- Case-insensitive substring search: does `w` occur contiguously in `s`? -/
def ciHas (w : List Char) : List Char → Bool
  | [] => w.isEmpty
  | x :: s => ciPrefB w (x :: s) || ciHas w s

theorem ciPrefB_of_ciAll : ∀ (cs w : List Char), ciAll cs w = true →
    ∀ q, ciPrefB w (cs ++ q) = true := by
  intro cs
  induction cs with
  | nil =>
    intro w h q
    cases w with
    | nil => rfl
    | cons c w => simp [ciAll] at h
  | cons x xs ih =>
    intro w h q
    cases w with
    | nil => simp [ciAll] at h
    | cons c w =>
      rw [ciAll] at h
      obtain ⟨h1, h2⟩ := Bool.and_eq_true_iff.1 h
      simp only [List.cons_append, ciPrefB, h1, List.append_eq, ih w h2 q, Bool.and_self]

theorem ciHas_extend {w s : List Char} (x : Char) (h : ciHas w s = true) :
    ciHas w (x :: s) = true := by
  rw [ciHas, h, Bool.or_true]

theorem ciHas_of_seg {w : List Char} : ∀ (p cs q : List Char), ciAll cs w = true →
    ciHas w (p ++ (cs ++ q)) = true := by
  intro p
  induction p with
  | nil =>
    intro cs q h
    cases hcq : cs ++ q with
    | nil =>
      have hcs : cs = [] := by
        cases cs with
        | nil => rfl
        | cons a b => simp at hcq
      subst hcs
      cases w with
      | nil => simp [ciHas, List.isEmpty]
      | cons c w => simp [ciAll] at h
    | cons y ys =>
      rw [List.nil_append, ciHas, ← hcq, ciPrefB_of_ciAll cs w h q, Bool.true_or]
  | cons z zs ih =>
    intro cs q h
    rw [List.cons_append]
    exact ciHas_extend z (ih cs q h)

theorem dropWhile_sfx (f : Char → Bool) : ∀ l : List Char, ∃ p, l = p ++ l.dropWhile f := by
  intro l
  induction l with
  | nil => exact ⟨[], rfl⟩
  | cons x xs ih =>
    by_cases hf : f x = true
    · obtain ⟨p, hp⟩ := ih
      exact ⟨x :: p, by rw [List.dropWhile_cons_of_pos hf, List.cons_append, ← hp]⟩
    · exact ⟨[], by rw [List.dropWhile_cons_of_neg (by simp [hf]), List.nil_append]⟩

theorem pyStrip_seg (s : List Char) : ∃ p q, s = p ++ (pyStrip s ++ q) := by
  obtain ⟨p, hp⟩ := dropWhile_sfx isSpacePy s
  obtain ⟨p₂, hp₂⟩ := dropWhile_sfx isSpacePy (s.dropWhile isSpacePy).reverse
  refine ⟨p, p₂.reverse, ?_⟩
  have h2 : s.dropWhile isSpacePy = pyStrip s ++ p₂.reverse := by
    have h3 := congrArg List.reverse hp₂
    rw [List.reverse_reverse, List.reverse_append] at h3
    exact h3
  conv_lhs => rw [hp, h2]

/-! ### Currency markers and their necessity for a match -/

/-- A USD marker in the sense of the spec: a dollar sign, or the word `USD`,
or the word `dollar` (hence also `dollars`), case-insensitively. -/
def hasUsdMarker (l : List Char) : Bool :=
  ciHas ['$'] l || ciHas ['U', 'S', 'D'] l || ciHas ['d', 'o', 'l', 'l', 'a', 'r'] l

/-- A Riel marker in the sense of the spec: the Riel sign, or the word `KHR`,
or the word `riel`, case-insensitively. -/
def hasRielMarker (l : List Char) : Bool :=
  ciHas ['៛'] l || ciHas ['K', 'H', 'R'] l || ciHas ['r', 'i', 'e', 'l'] l

theorem usd_patterns_mand :
    (CE.usd_patterns ++ CD.usd_patterns).all (fun p =>
      mand (.str ['$']) p || mand (.str ['U', 'S', 'D']) p ||
        mand (.str ['d', 'o', 'l', 'l', 'a', 'r']) p) = true := by decide

theorem riel_patterns_mand :
    (CE.riel_patterns ++ CD.riel_patterns).all (fun p =>
      mand (.str ['៛']) p || mand (.str ['K', 'H', 'R']) p ||
        mand (.str ['r', 'i', 'e', 'l']) p) = true := by decide

theorem all_patterns_mand_digit :
    ((CE.usd_patterns ++ CE.riel_patterns) ++ (CD.usd_patterns ++ CD.riel_patterns)).all
      (fun p => mand .digit p) = true := by decide

/-- If a pattern has a mandatory literal word `w` and it matches somewhere in
the stripped text, then `w` occurs case-insensitively in the full text. -/
theorem ciHas_of_match {t : String} {pt : RE} {w : List Char} {s₀ : List Char} {r : Res}
    (hmand : mand (.str w) pt = true)
    (hsfx : ∃ p, pyStrip t.data = p ++ s₀) (hr : r ∈ mt pt s₀) :
    ciHas w t.data = true := by
  obtain ⟨u, pu, qu, hru, n₂, s₂, r₂, hr₂, hru2⟩ := mand_sound pt.depth pt s₀ r hmand hr
  have hci : ciAll u w = true := by
    have := mtF_str_sound n₂ w s₂ r₂ hr₂
    rw [hru2] at this
    exact this
  obtain ⟨pre, hpre⟩ := hsfx
  obtain ⟨a, b, hab⟩ := pyStrip_seg t.data
  have hsp : r.1 ++ r.2.2 = s₀ := mt_append hr
  have : t.data = (a ++ (pre ++ pu)) ++ (u ++ (qu ++ r.2.2 ++ b)) := by
    rw [hab, hpre, ← hsp, hru]
    simp [List.append_assoc]
  rw [this]
  have := ciHas_of_seg (w := w) (a ++ (pre ++ pu)) u (qu ++ r.2.2 ++ b) hci
  simpa [List.append_assoc] using this

/-- If a pattern has a mandatory digit and matches somewhere in the stripped
text, the full text contains an ASCII digit. -/
theorem digit_of_match {t : String} {pt : RE} {s₀ : List Char} {r : Res}
    (hmand : mand .digit pt = true)
    (hsfx : ∃ p, pyStrip t.data = p ++ s₀) (hr : r ∈ mt pt s₀) :
    ∃ c ∈ t.data, isDigitPy c = true := by
  obtain ⟨u, pu, qu, hru, n₂, s₂, r₂, hr₂, hru2⟩ := mand_sound pt.depth pt s₀ r hmand hr
  obtain ⟨x, hx1, hx2⟩ := mtF_digit_sound n₂ s₂ r₂ hr₂
  rw [hru2] at hx1
  subst hx1
  obtain ⟨pre, hpre⟩ := hsfx
  obtain ⟨a, b, hab⟩ := pyStrip_seg t.data
  have hsp : r.1 ++ r.2.2 = s₀ := mt_append hr
  refine ⟨x, ?_, hx2⟩
  rw [hab, hpre, ← hsp, hru]
  simp

theorem findAll_usd_nil {t : String} (hm : hasUsdMarker t.data = false) :
    ∀ p ∈ CE.usd_patterns ++ CD.usd_patterns, findAll p (pyStrip t.data) = [] := by
  intro pt hp
  apply findAll_eq_nil
  intro s₀ r hsfx hr
  have hall := List.all_eq_true.1 usd_patterns_mand pt hp
  rw [hasUsdMarker] at hm
  simp only [Bool.or_eq_false_iff] at hm
  obtain ⟨⟨hm1, hm2⟩, hm3⟩ := hm
  rcases Bool.or_eq_true_iff.1 hall with hall | h3
  rcases Bool.or_eq_true_iff.1 hall with h1 | h2
  · exact absurd (ciHas_of_match h1 hsfx hr) (by rw [hm1]; simp)
  · exact absurd (ciHas_of_match h2 hsfx hr) (by rw [hm2]; simp)
  · exact absurd (ciHas_of_match h3 hsfx hr) (by rw [hm3]; simp)

theorem findAll_riel_nil {t : String} (hm : hasRielMarker t.data = false) :
    ∀ p ∈ CE.riel_patterns ++ CD.riel_patterns, findAll p (pyStrip t.data) = [] := by
  intro pt hp
  apply findAll_eq_nil
  intro s₀ r hsfx hr
  have hall := List.all_eq_true.1 riel_patterns_mand pt hp
  rw [hasRielMarker] at hm
  simp only [Bool.or_eq_false_iff] at hm
  obtain ⟨⟨hm1, hm2⟩, hm3⟩ := hm
  rcases Bool.or_eq_true_iff.1 hall with hall | h3
  rcases Bool.or_eq_true_iff.1 hall with h1 | h2
  · exact absurd (ciHas_of_match h1 hsfx hr) (by rw [hm1]; simp)
  · exact absurd (ciHas_of_match h2 hsfx hr) (by rw [hm2]; simp)
  · exact absurd (ciHas_of_match h3 hsfx hr) (by rw [hm3]; simp)

theorem findAll_nodigit_nil {t : String} (hd : ∀ c ∈ t.data, isDigitPy c = false) :
    ∀ p ∈ (CE.usd_patterns ++ CE.riel_patterns) ++ (CD.usd_patterns ++ CD.riel_patterns),
      findAll p (pyStrip t.data) = [] := by
  intro pt hp
  apply findAll_eq_nil
  intro s₀ r hsfx hr
  have hall := List.all_eq_true.1 all_patterns_mand_digit pt hp
  obtain ⟨c, hc, hcd⟩ := digit_of_match hall hsfx hr
  rw [hd c hc] at hcd
  exact absurd hcd (by simp)

/-! ### Candidate lists and the maximum fold -/

/-- All successfully parsed candidate values produced by a pattern list on a
stripped text, in scan order. -/
def candsOf (pats : List RE) (s : List Char) : List ℚ :=
  pats.flatMap (fun p => (findAll p s).filterMap parseCand)

theorem candsOf_cons (p : RE) (ps : List RE) (s : List Char) :
    candsOf (p :: ps) s = (findAll p s).filterMap parseCand ++ candsOf ps s := by
  simp [candsOf]

theorem step_max (a v : ℚ) : (if v > a then v else a) = max a v := by
  rcases le_or_lt v a with h | h
  · rw [if_neg (not_lt.2 h), max_eq_left h]
  · rw [if_pos h, max_eq_right h.le]

theorem inner_foldl_eq (caps : List (List Char)) : ∀ a : ℚ,
    caps.foldl (fun a cap =>
      match parseCand cap with
      | some amount => if amount > a then amount else a
      | none => a) a = (caps.filterMap parseCand).foldl max a := by
  induction caps with
  | nil => intro a; rfl
  | cons c cs ih =>
    intro a
    cases hp : parseCand c with
    | none => simp only [List.foldl_cons, hp, List.filterMap_cons, ih]
    | some v =>
      simp only [List.foldl_cons, hp, List.filterMap_cons]
      rw [step_max]
      exact ih (max a v)

theorem bestOver_eq_max (pats : List RE) (s : List Char) :
    CE.bestOver pats s = (candsOf pats s).foldl max 0 := by
  suffices h : ∀ (l : List RE) (a : ℚ),
      l.foldl (fun acc p =>
        (findAll p s).foldl (fun a cap =>
          match parseCand cap with
          | some amount => if amount > a then amount else a
          | none => a) acc) a = (candsOf l s).foldl max a by
    exact h pats 0
  intro l
  induction l with
  | nil => intro a; simp [candsOf]
  | cons p ps ih =>
    intro a
    rw [List.foldl_cons, candsOf_cons, List.foldl_append, inner_foldl_eq, ih]

theorem foldl_max_ge (l : List ℚ) : ∀ a : ℚ, a ≤ l.foldl max a := by
  induction l with
  | nil => intro a; simp
  | cons v vs ih => intro a; exact le_trans (le_max_left a v) (ih (max a v))

theorem foldl_max_filter_pos (l : List ℚ) : ∀ a : ℚ, 0 ≤ a →
    l.foldl max a = (l.filter (fun v => decide (0 < v))).foldl max a := by
  induction l with
  | nil => intro a _; rfl
  | cons v vs ih =>
    intro a ha
    by_cases hv : 0 < v
    · rw [List.foldl_cons, List.filter_cons_of_pos (by simpa using hv), List.foldl_cons,
        ih (max a v) (le_trans ha (le_max_left a v))]
    · rw [List.foldl_cons, List.filter_cons_of_neg (by simpa using hv),
        max_eq_left (le_trans (not_lt.1 hv) ha), ih a ha]

theorem collect_inner_eq (caps : List (List Char)) : ∀ ams : List ℚ,
    caps.foldl (fun ams cap =>
      match parseCand cap with
      | some amount => if amount > 0 then ams ++ [amount] else ams
      | none => ams) ams
      = ams ++ ((caps.filterMap parseCand).filter (fun v => decide (0 < v))) := by
  induction caps with
  | nil => intro ams; simp
  | cons c cs ih =>
    intro ams
    cases hp : parseCand c with
    | none => simp only [List.foldl_cons, hp, List.filterMap_cons, ih]
    | some v =>
      by_cases hv : v > 0
      · rw [List.foldl_cons]
        simp only [hp, if_pos hv, ih, List.filterMap_cons]
        rw [List.filter_cons_of_pos (by simpa using hv), List.append_assoc]
        rfl
      · rw [List.foldl_cons]
        simp only [hp, if_neg hv, ih, List.filterMap_cons]
        rw [List.filter_cons_of_neg (by simpa using hv)]

theorem collect_eq (pats : List RE) (s : List Char) :
    CD.collect pats s = (candsOf pats s).filter (fun v => decide (0 < v)) := by
  suffices h : ∀ (l : List RE) (ams : List ℚ),
      l.foldl (fun amounts p =>
        (findAll p s).foldl (fun ams cap =>
          match parseCand cap with
          | some amount => if amount > 0 then ams ++ [amount] else ams
          | none => ams) amounts) ams
        = ams ++ ((candsOf l s).filter (fun v => decide (0 < v))) by
    simpa using h pats []
  intro l
  induction l with
  | nil => intro ams; simp [candsOf]
  | cons p ps ih =>
    intro ams
    rw [List.foldl_cons, collect_inner_eq, ih, candsOf_cons, List.filter_append,
      List.append_assoc]

theorem mem_filter_pos {l : List ℚ} {v : ℚ}
    (h : v ∈ l.filter (fun v => decide (0 < v))) : 0 < v := by
  have h2 := List.mem_filter.1 h
  simpa using h2.2

theorem pyMax_eq {l : List ℚ} (hl : ∀ v ∈ l, 0 < v) :
    CD.pyMax l = l.foldl max 0 := by
  cases l with
  | nil => rfl
  | cons h t =>
    have h0 : max 0 h = h := max_eq_right (le_of_lt (hl h (List.mem_cons_self h t)))
    simp only [CD.pyMax, List.foldl_cons, h0]

namespace CE

/-- All parsed USD candidates of `currency_extractor.extract_amounts`. -/
def usdCands (t : String) : List ℚ := candsOf usd_patterns (pyStrip t.data)

/-- All parsed Riel candidates of `currency_extractor.extract_amounts`. -/
def rielCands (t : String) : List ℚ := candsOf riel_patterns (pyStrip t.data)

theorem ce_extract_eq_max (t : String) :
    extract_amounts t = ((usdCands t).foldl max 0, (rielCands t).foldl max 0) := by
  rw [extract_amounts, usdCands, rielCands, bestOver_eq_max, bestOver_eq_max]

end CE

namespace CD

/-- The positive parsed USD candidates collected by
`CurrencyDetector.extract_amounts` (empty for the falsy empty text). -/
def usdCands (t : String) : List ℚ :=
  if t = "" then []
  else (candsOf usd_patterns (pyStrip t.data)).filter (fun v => decide (0 < v))

/-- The positive parsed Riel candidates collected by
`CurrencyDetector.extract_amounts` (empty for the falsy empty text). -/
def rielCands (t : String) : List ℚ :=
  if t = "" then []
  else (candsOf riel_patterns (pyStrip t.data)).filter (fun v => decide (0 < v))

theorem cd_extract_eq_max (t : String) :
    extract_amounts t = ((usdCands t).foldl max 0, (rielCands t).foldl max 0) := by
  by_cases h : t = ""
  · simp [extract_amounts, CurrencyDetector.extract_amounts, usdCands, rielCands, h, detector]
  · rw [extract_amounts, CurrencyDetector.extract_amounts, if_neg h]
    show (_, _) = (_, _)
    rw [usdCands, rielCands, if_neg h, if_neg h]
    have hu : CD.collect detector.usd_patterns (pyStrip t.data)
        = (candsOf CD.usd_patterns (pyStrip t.data)).filter (fun v => decide (0 < v)) :=
      collect_eq CD.usd_patterns (pyStrip t.data)
    have hr : CD.collect detector.riel_patterns (pyStrip t.data)
        = (candsOf CD.riel_patterns (pyStrip t.data)).filter (fun v => decide (0 < v)) :=
      collect_eq CD.riel_patterns (pyStrip t.data)
    rw [hu, hr]
    exact Prod.ext (pyMax_eq (fun v hv => mem_filter_pos hv))
      (pyMax_eq (fun v hv => mem_filter_pos hv))

end CD

/-! ### The Riel patterns capture only digits and grouping commas -/

/-- Digit-or-comma character class. -/
def Pdc (c : Char) : Bool := isDigitPy c || c == ','

/-- Syntactic check: every character `re` can consume is a digit or a comma
(`space` is excluded; literal words may only be the grouping comma). -/
def litDC : RE → Bool
  | .str w => w.all (fun c => c == ',')
  | .digit => true
  | .space => false
  | .cat a b => litDC a && litDC b
  | .alt a b => litDC a && litDC b
  | .star a => litDC a
  | .group a => litDC a

/-- Syntactic check: every capturing group of `re` consumes only digits and
commas. -/
def capDC : RE → Bool
  | .str _ => true
  | .digit => true
  | .space => true
  | .cat a b => capDC a && capDC b
  | .alt a b => capDC a && capDC b
  | .star a => capDC a
  | .group a => litDC a

/-- Syntactic check: every successful match of `re` fills the capture group. -/
def grpAlways : RE → Bool
  | .str _ => false
  | .digit => false
  | .space => false
  | .cat a b => grpAlways a || grpAlways b
  | .alt a b => grpAlways a && grpAlways b
  | .star _ => false
  | .group _ => true

theorem ciEq_comma {x : Char} (h : ciEq x ',' = true) : x = ',' := by
  rw [ciEq] at h
  rw [show lowA ',' = ',' from by decide] at h
  rw [if_neg (by decide : ¬(',' = 'k')), if_neg (by decide : ¬(',' = 'i')),
    if_neg (by decide : ¬(',' = 's')), if_neg (by decide : ¬isLoA ',' = true)] at h
  simpa using h

theorem ciAll_comma : ∀ (cs w : List Char), ciAll cs w = true →
    w.all (fun c => c == ',') = true → ∀ x ∈ cs, Pdc x = true := by
  intro cs
  induction cs with
  | nil => intro w _ _ x hx; simp at hx
  | cons y ys ih =>
    intro w h hw x hx
    cases w with
    | nil => simp [ciAll] at h
    | cons c w =>
      rw [ciAll] at h
      obtain ⟨h1, h2⟩ := Bool.and_eq_true_iff.1 h
      rw [List.all_cons] at hw
      obtain ⟨hw1, hw2⟩ := Bool.and_eq_true_iff.1 hw
      have hc : c = ',' := by simpa using hw1
      subst hc
      rcases List.mem_cons.1 hx with rfl | hx
      · rw [Pdc, ciEq_comma h1]; simp
      · exact ih w h2 hw2 x hx

theorem starN_all {m : List Char → List Res} {P : Char → Bool}
    (hm : ∀ s r, r ∈ m s → ∀ x ∈ r.1, P x = true) :
    ∀ (n : Nat) (s : List Char) (r : Res), r ∈ starN m n s → ∀ x ∈ r.1, P x = true := by
  intro n
  induction n with
  | zero =>
    intro s r h x hx
    simp only [starN, List.mem_singleton] at h
    subst h; simp at hx
  | succ n ih =>
    intro s r h x hx
    simp only [starN, List.mem_append, List.mem_flatMap, List.mem_map, List.mem_filter,
      List.mem_singleton] at h
    rcases h with ⟨r₁, ⟨hr₁, _⟩, q, hq, rfl⟩ | h
    · rcases List.mem_append.1 (by simpa using hx) with hx | hx
      · exact hm s r₁ hr₁ x hx
      · exact ih r₁.2.2 q hq x hx
    · subst h; simp at hx

theorem litDC_sound : ∀ (n : Nat) (re : RE) (s : List Char) (r : Res),
    litDC re = true → r ∈ mtF n re s → ∀ x ∈ r.1, Pdc x = true := by
  intro n
  induction n with
  | zero => intro re s r _ h; simp [mtF] at h
  | succ n ih =>
    intro re s r hdc h x hx
    cases re with
    | str w =>
      have hci := mtF_str_sound (n + 1) w s r h
      exact ciAll_comma r.1 w hci (by simpa [litDC] using hdc) x hx
    | digit =>
      obtain ⟨y, hy, hyd⟩ := mtF_digit_sound (n + 1) s r h
      rw [hy] at hx
      rcases List.mem_singleton.1 hx with rfl
      simp [Pdc, hyd]
    | space => rw [litDC] at hdc; exact absurd hdc (by simp)
    | cat a b =>
      rw [litDC] at hdc
      obtain ⟨ha, hb⟩ := Bool.and_eq_true_iff.1 hdc
      rw [mtF] at h
      simp only [List.mem_flatMap, List.mem_map] at h
      obtain ⟨ra, hra, rb, hrb, rfl⟩ := h
      rcases List.mem_append.1 (by simpa using hx) with hx | hx
      · exact ih a s ra ha hra x hx
      · exact ih b ra.2.2 rb hb hrb x hx
    | alt a b =>
      rw [litDC] at hdc
      obtain ⟨ha, hb⟩ := Bool.and_eq_true_iff.1 hdc
      rw [mtF] at h
      rcases List.mem_append.1 h with h | h
      · exact ih a s r ha h x hx
      · exact ih b s r hb h x hx
    | star a =>
      rw [litDC] at hdc
      rw [mtF] at h
      exact starN_all (fun s₂ r₂ hr₂ => ih a s₂ r₂ hdc hr₂) s.length s r h x hx
    | group a =>
      rw [litDC] at hdc
      rw [mtF] at h
      simp only [List.mem_map] at h
      obtain ⟨ra, hra, rfl⟩ := h
      exact ih a s ra hdc hra x hx

theorem starN_cap {m : List Char → List Res} {P : Char → Bool}
    (hm : ∀ s r, r ∈ m s → ∀ l, r.2.1 = some l → ∀ x ∈ l, P x = true) :
    ∀ (n : Nat) (s : List Char) (r : Res), r ∈ starN m n s →
      ∀ l, r.2.1 = some l → ∀ x ∈ l, P x = true := by
  intro n
  induction n with
  | zero =>
    intro s r h l hl
    simp only [starN, List.mem_singleton] at h
    subst h; simp at hl
  | succ n ih =>
    intro s r h l hl x hx
    simp only [starN, List.mem_append, List.mem_flatMap, List.mem_map, List.mem_filter,
      List.mem_singleton] at h
    rcases h with ⟨r₁, ⟨hr₁, _⟩, q, hq, rfl⟩ | h
    · rcases omerge_some hl with h1 | h2
      · exact hm s r₁ hr₁ l h1 x hx
      · exact ih r₁.2.2 q hq l h2 x hx
    · subst h; simp at hl

theorem capDC_sound : ∀ (n : Nat) (re : RE) (s : List Char) (r : Res),
    capDC re = true → r ∈ mtF n re s → ∀ l, r.2.1 = some l → ∀ x ∈ l, Pdc x = true := by
  intro n
  induction n with
  | zero => intro re s r _ h; simp [mtF] at h
  | succ n ih =>
    intro re s r hdc h l hl x hx
    cases re with
    | str w =>
      rw [mtF] at h
      cases hmc : ciPref w s with
      | none => rw [hmc] at h; simp at h
      | some p =>
        obtain ⟨cs, rest⟩ := p
        rw [hmc] at h
        simp only [List.mem_singleton] at h
        subst h; simp at hl
    | digit =>
      rw [mtF] at h
      obtain ⟨y, s₂, hs, hf, hr⟩ := oneChar_sound h
      subst hr; simp at hl
    | space =>
      rw [mtF] at h
      obtain ⟨y, s₂, hs, hf, hr⟩ := oneChar_sound h
      subst hr; simp at hl
    | cat a b =>
      rw [capDC] at hdc
      obtain ⟨ha, hb⟩ := Bool.and_eq_true_iff.1 hdc
      rw [mtF] at h
      simp only [List.mem_flatMap, List.mem_map] at h
      obtain ⟨ra, hra, rb, hrb, rfl⟩ := h
      rcases omerge_some hl with h1 | h2
      · exact ih a s ra ha hra l h1 x hx
      · exact ih b ra.2.2 rb hb hrb l h2 x hx
    | alt a b =>
      rw [capDC] at hdc
      obtain ⟨ha, hb⟩ := Bool.and_eq_true_iff.1 hdc
      rw [mtF] at h
      rcases List.mem_append.1 h with h | h
      · exact ih a s r ha h l hl x hx
      · exact ih b s r hb h l hl x hx
    | star a =>
      rw [capDC] at hdc
      rw [mtF] at h
      exact starN_cap (fun s₂ r₂ hr₂ => ih a s₂ r₂ hdc hr₂) s.length s r h l hl x hx
    | group a =>
      rw [capDC] at hdc
      rw [mtF] at h
      simp only [List.mem_map] at h
      obtain ⟨ra, hra, rfl⟩ := h
      have hla : ra.1 = l := by simpa using hl
      subst hla
      exact litDC_sound n a s ra hdc hra x hx

theorem grp_sound : ∀ (n : Nat) (re : RE) (s : List Char) (r : Res),
    grpAlways re = true → r ∈ mtF n re s → ∃ l, r.2.1 = some l := by
  intro n
  induction n with
  | zero => intro re s r _ h; simp [mtF] at h
  | succ n ih =>
    intro re s r hg h
    cases re with
    | str w => rw [grpAlways] at hg; exact absurd hg (by simp)
    | digit => rw [grpAlways] at hg; exact absurd hg (by simp)
    | space => rw [grpAlways] at hg; exact absurd hg (by simp)
    | star a => rw [grpAlways] at hg; exact absurd hg (by simp)
    | cat a b =>
      rw [grpAlways] at hg
      rw [mtF] at h
      simp only [List.mem_flatMap, List.mem_map] at h
      obtain ⟨ra, hra, rb, hrb, rfl⟩ := h
      rcases Bool.or_eq_true_iff.1 hg with ha | hb
      · obtain ⟨la, hla⟩ := ih a s ra ha hra
        exact ⟨la, by simp [omerge, hla]⟩
      · obtain ⟨lb, hlb⟩ := ih b ra.2.2 rb hb hrb
        cases hra2 : ra.2.1 with
        | some la => exact ⟨la, by simp [omerge, hra2]⟩
        | none => exact ⟨lb, by simp [omerge, hra2, hlb]⟩
    | alt a b =>
      rw [grpAlways] at hg
      obtain ⟨ha, hb⟩ := Bool.and_eq_true_iff.1 hg
      rw [mtF] at h
      rcases List.mem_append.1 h with h | h
      · exact ih a s r ha h
      · exact ih b s r hb h
    | group a =>
      rw [mtF] at h
      simp only [List.mem_map] at h
      obtain ⟨ra, hra, rfl⟩ := h
      exact ⟨ra.1, rfl⟩

theorem riel_patterns_dc :
    (CE.riel_patterns ++ CD.riel_patterns).all (fun p => capDC p && grpAlways p) = true := by
  decide

theorem isDigit_ne_dot {c : Char} (h : isDigitPy c = true) : (c != '.') = true := by
  by_cases hc : c = '.'
  · subst hc; exact absurd h (by decide)
  · simpa using hc

theorem takeWhile_digits {l : List Char} (h : l.all isDigitPy = true) :
    (l.takeWhile (fun c => c != '.') = l) ∧ (l.dropWhile (fun c => c != '.') = []) := by
  induction l with
  | nil => exact ⟨rfl, rfl⟩
  | cons c cs ih =>
    rw [List.all_cons] at h
    obtain ⟨h1, h2⟩ := Bool.and_eq_true_iff.1 h
    obtain ⟨iht, ihd⟩ := ih h2
    constructor
    · simp only [List.takeWhile_cons, isDigit_ne_dot h1, if_true, iht]
    · simp only [List.dropWhile_cons, isDigit_ne_dot h1, if_true, ihd]

theorem parseFloat_whole {l : List Char} (h : l.all isDigitPy = true) {v : ℚ}
    (hv : parseFloat l = some v) : ∃ n : ℕ, v = (n : ℚ) := by
  obtain ⟨ht, hd⟩ := takeWhile_digits h
  rw [parseFloat] at hv
  simp only [ht, hd] at hv
  by_cases he : l.isEmpty = true
  · rw [he] at hv; simp at hv
  · simp only [he, h, Bool.not_false, Bool.and_self] at hv
    exact ⟨digitsVal l, by simpa using hv.symm⟩

theorem parseCand_whole {cap : List Char} (h : ∀ x ∈ cap, Pdc x = true) {v : ℚ}
    (hv : parseCand cap = some v) : ∃ n : ℕ, v = (n : ℚ) := by
  apply parseFloat_whole ?_ hv
  rw [List.all_eq_true]
  intro x hx
  rw [stripCommas] at hx
  obtain ⟨hmem, hne⟩ := List.mem_filter.1 hx
  have hp := h x hmem
  rw [Pdc] at hp
  rcases Bool.or_eq_true_iff.1 hp with hdg | hcm
  · exact hdg
  · exact absurd (by simpa using hcm) (by simpa using hne)

theorem riel_cap_chars {s : List Char} {pt : RE}
    (hp : pt ∈ CE.riel_patterns ++ CD.riel_patterns) {cap : List Char}
    (hcap : cap ∈ findAll pt s) : ∀ x ∈ cap, Pdc x = true := by
  obtain ⟨s₀, r, _, hr, hcapof⟩ := findAll_sound hcap
  have hdc := List.all_eq_true.1 riel_patterns_dc pt hp
  obtain ⟨hcapdc, hgrp⟩ := Bool.and_eq_true_iff.1 hdc
  obtain ⟨l, hl⟩ := grp_sound pt.depth pt s₀ r hgrp hr
  have hcl : cap = l := by rw [hcapof, capOf, hl]
  intro x hx
  exact capDC_sound pt.depth pt s₀ r hcapdc hr l hl x (hcl ▸ hx)

theorem riel_cands_whole {s : List Char} {pt : RE}
    (hp : pt ∈ CE.riel_patterns ++ CD.riel_patterns) {v : ℚ}
    (hv : v ∈ (findAll pt s).filterMap parseCand) : ∃ n : ℕ, v = (n : ℚ) := by
  obtain ⟨cap, hcap, hpc⟩ := List.mem_filterMap.1 hv
  exact parseCand_whole (riel_cap_chars hp hcap) hpc

/-- A reachable overflow-aware Riel value: infinity or a whole number. -/
def wholeOrInf (x : PyFloat) : Prop :=
  x = PyFloat.inf ∨ ∃ n : ℕ, x = PyFloat.fin (n : ℚ)

theorem wholeOrInf_zero : wholeOrInf (PyFloat.fin 0) :=
  Or.inr ⟨0, by simp⟩

theorem parseCandF_whole {cap : List Char} (h : ∀ x ∈ cap, Pdc x = true) {v : PyFloat}
    (hv : parseCandF cap = some v) : wholeOrInf v := by
  rw [parseCandF] at hv
  cases hp : parseFloat (stripCommas cap) with
  | none => rw [hp] at hv; exact absurd hv (by simp)
  | some q =>
    rw [hp] at hv
    simp only [Option.some.injEq] at hv
    by_cases hb : ovfBound ≤ q
    · exact Or.inl (by rw [← hv, if_pos hb])
    · obtain ⟨n, hn⟩ := parseCand_whole h (show parseCand cap = some q from hp)
      exact Or.inr ⟨n, by rw [← hv, if_neg hb, hn]⟩

theorem bestOverF_wholeOrInf {s : List Char} {pats : List RE}
    (h : ∀ p ∈ pats, ∀ cap ∈ findAll p s, ∀ v, parseCandF cap = some v → wholeOrInf v) :
    wholeOrInf (CE.bestOverF pats s) := by
  have hinner : ∀ (caps : List (List Char)) (a : PyFloat), wholeOrInf a →
      (∀ cap ∈ caps, ∀ v, parseCandF cap = some v → wholeOrInf v) →
      wholeOrInf (caps.foldl (fun a cap =>
        match parseCandF cap with
        | some amount => if PyFloat.ltB a amount then amount else a
        | none => a) a) := by
    intro caps
    induction caps with
    | nil => intro a ha _; exact ha
    | cons c cs ih =>
      intro a ha hc
      rw [List.foldl_cons]
      cases hp : parseCandF c with
      | none =>
        simp only [hp]
        exact ih a ha (fun cap hcap => hc cap (List.mem_cons_of_mem c hcap))
      | some v =>
        simp only [hp]
        have hv := hc c (List.mem_cons_self c cs) v hp
        by_cases hlt : PyFloat.ltB a v = true
        · rw [if_pos hlt]
          exact ih v hv (fun cap hcap => hc cap (List.mem_cons_of_mem c hcap))
        · rw [if_neg hlt]
          exact ih a ha (fun cap hcap => hc cap (List.mem_cons_of_mem c hcap))
  suffices hgen : ∀ (l : List RE) (a : PyFloat), wholeOrInf a →
      (∀ p ∈ l, ∀ cap ∈ findAll p s, ∀ v, parseCandF cap = some v → wholeOrInf v) →
      wholeOrInf (l.foldl (fun acc p =>
        (findAll p s).foldl (fun a cap =>
          match parseCandF cap with
          | some amount => if PyFloat.ltB a amount then amount else a
          | none => a) acc) a) by
    exact hgen pats (.fin 0) wholeOrInf_zero h
  intro l
  induction l with
  | nil => intro a ha _; exact ha
  | cons p ps ih =>
    intro a ha hl
    rw [List.foldl_cons]
    exact ih _ (hinner _ a ha (fun cap hcap => hl p (List.mem_cons_self p ps) cap hcap))
      (fun q hq => hl q (List.mem_cons_of_mem p hq))

theorem collectF_mem {s : List Char} {pats : List RE}
    (h : ∀ p ∈ pats, ∀ cap ∈ findAll p s, ∀ v, parseCandF cap = some v → wholeOrInf v) :
    ∀ x ∈ CD.collectF pats s, wholeOrInf x := by
  have hinner : ∀ (caps : List (List Char)) (ams : List PyFloat),
      (∀ x ∈ ams, wholeOrInf x) →
      (∀ cap ∈ caps, ∀ v, parseCandF cap = some v → wholeOrInf v) →
      ∀ x ∈ caps.foldl (fun ams cap =>
        match parseCandF cap with
        | some amount => if PyFloat.ltB (.fin 0) amount then ams ++ [amount] else ams
        | none => ams) ams, wholeOrInf x := by
    intro caps
    induction caps with
    | nil => intro ams hams _ x hx; exact hams x hx
    | cons c cs ih =>
      intro ams hams hc x hx
      rw [List.foldl_cons] at hx
      cases hp : parseCandF c with
      | none =>
        simp only [hp] at hx
        exact ih ams hams (fun cap hcap => hc cap (List.mem_cons_of_mem c hcap)) x hx
      | some v =>
        simp only [hp] at hx
        have hv := hc c (List.mem_cons_self c cs) v hp
        by_cases hlt : PyFloat.ltB (.fin 0) v = true
        · rw [if_pos hlt] at hx
          refine ih (ams ++ [v]) ?_ (fun cap hcap => hc cap (List.mem_cons_of_mem c hcap)) x hx
          intro y hy
          rcases List.mem_append.1 hy with hy | hy
          · exact hams y hy
          · rw [List.mem_singleton.1 hy]; exact hv
        · rw [if_neg hlt] at hx
          exact ih ams hams (fun cap hcap => hc cap (List.mem_cons_of_mem c hcap)) x hx
  suffices hgen : ∀ (l : List RE) (ams : List PyFloat), (∀ x ∈ ams, wholeOrInf x) →
      (∀ p ∈ l, ∀ cap ∈ findAll p s, ∀ v, parseCandF cap = some v → wholeOrInf v) →
      ∀ x ∈ l.foldl (fun amounts p =>
        (findAll p s).foldl (fun ams cap =>
          match parseCandF cap with
          | some amount => if PyFloat.ltB (.fin 0) amount then ams ++ [amount] else ams
          | none => ams) amounts) ams, wholeOrInf x by
    intro x hx
    exact hgen pats [] (by simp) h x hx
  intro l
  induction l with
  | nil => intro ams hams _ x hx; exact hams x hx
  | cons p ps ih =>
    intro ams hams hl x hx
    rw [List.foldl_cons] at hx
    exact ih _ (hinner _ ams hams (fun cap hcap => hl p (List.mem_cons_self p ps) cap hcap))
      (fun q hq => hl q (List.mem_cons_of_mem p hq)) x hx

theorem pyMaxF_wholeOrInf {l : List PyFloat} (hl : ∀ x ∈ l, wholeOrInf x) :
    wholeOrInf (CD.pyMaxF l) := by
  have hfold : ∀ (t : List PyFloat) (a : PyFloat), wholeOrInf a → (∀ x ∈ t, wholeOrInf x) →
      wholeOrInf (t.foldl (fun a b => if PyFloat.ltB a b then b else a) a) := by
    intro t
    induction t with
    | nil => intro a ha _; exact ha
    | cons v vs ih =>
      intro a ha ht
      rw [List.foldl_cons]
      by_cases hlt : PyFloat.ltB a v = true
      · rw [if_pos hlt]
        exact ih v (ht v (List.mem_cons_self v vs)) (fun u hu => ht u (List.mem_cons_of_mem v hu))
      · rw [if_neg hlt]
        exact ih a ha (fun u hu => ht u (List.mem_cons_of_mem v hu))
  cases l with
  | nil => exact wholeOrInf_zero
  | cons h t =>
    exact hfold t h (hl h (List.mem_cons_self h t)) (fun u hu => hl u (List.mem_cons_of_mem h hu))

theorem riel_candsF_wholeOrInf {s : List Char} {pt : RE}
    (hp : pt ∈ CE.riel_patterns ++ CD.riel_patterns) :
    ∀ cap ∈ findAll pt s, ∀ v, parseCandF cap = some v → wholeOrInf v :=
  fun _ hcap _ hv => parseCandF_whole (riel_cap_chars hp hcap) hv

theorem foldl_max_whole : ∀ (l : List ℚ), (∀ v ∈ l, ∃ n : ℕ, v = (n : ℚ)) →
    ∀ m : ℕ, ∃ n : ℕ, l.foldl max ((m : ℕ) : ℚ) = (n : ℚ) := by
  intro l
  induction l with
  | nil => intro _ m; exact ⟨m, rfl⟩
  | cons v vs ih =>
    intro hl m
    obtain ⟨k, hk⟩ := hl v (List.mem_cons_self v vs)
    rw [List.foldl_cons, hk, show max ((m : ℕ) : ℚ) ((k : ℕ) : ℚ) = ((max m k : ℕ) : ℚ) by
      rw [Nat.cast_max]]
    exact ih (fun u hu => hl u (List.mem_cons_of_mem v hu)) (max m k)

/-! ### Remaining plumbing for the claim theorems -/

theorem candsOf_nil {pats : List RE} {s : List Char}
    (h : ∀ p ∈ pats, findAll p s = []) : candsOf pats s = [] := by
  induction pats with
  | nil => rfl
  | cons p ps ih =>
    rw [candsOf_cons, h p (List.mem_cons_self p ps),
      ih (fun q hq => h q (List.mem_cons_of_mem p hq))]
    rfl

theorem cd_usdCands_nil {t : String}
    (h : ∀ p ∈ CD.usd_patterns, findAll p (pyStrip t.data) = []) : CD.usdCands t = [] := by
  by_cases he : t = ""
  · simp [CD.usdCands, he]
  · simp [CD.usdCands, he, candsOf_nil h]

theorem cd_rielCands_nil {t : String}
    (h : ∀ p ∈ CD.riel_patterns, findAll p (pyStrip t.data) = []) : CD.rielCands t = [] := by
  by_cases he : t = ""
  · simp [CD.rielCands, he]
  · simp [CD.rielCands, he, candsOf_nil h]

theorem sum_filter_if (f : DB.PaymentRecord → Bool) (g : DB.PaymentRecord → ℚ) :
    ∀ l : List DB.PaymentRecord,
      ((l.filter f).map g).sum = (l.map (fun r => if f r = true then g r else 0)).sum := by
  intro l
  induction l with
  | nil => rfl
  | cons a as ih =>
    by_cases hf : f a = true
    · simp only [List.filter_cons, hf, if_true, List.map_cons, List.sum_cons, ih]
    · simp only [List.filter_cons, hf, List.map_cons, List.sum_cons, ih, Bool.false_eq_true,
        if_false, zero_add]

/-! ### Claim theorems -/

/-- C1, counterexample: the transaction-form pattern `\$(\d+(?:\.\d{2})?)\s+paid\s+by`
matches `"$5 paid by"` with value `5` (first conjunct), yet on
`"$5 paid by Bob and $100"` the extractor returns `100`, not the
phrase-anchored `5`: no short-circuit happens, refuting the claim that the
transaction-form value is returned as the sole amount. -/
theorem c1_transaction_priority_counterexample :
    CE.extract_amounts "$5 paid by" = (5, 0) ∧
    CE.extract_amounts "$5 paid by Bob and $100" = (100, 0) ∧
    (CE.extract_amounts "$5 paid by Bob and $100").1 ≠ 5 := by
  refine ⟨by decide, by decide, by decide⟩

/-- C1 (amended): a transaction-form match does not short-circuit the generic
pass; its value is one candidate among all pattern matches, and
`extract_amounts` returns the maximum over the full candidate list, so a
larger generic match elsewhere in the text wins over the phrase-anchored
value (`"$5 paid by Bob and $100"` yields `100`, not `5`). -/
theorem c1_transaction_form_no_short_circuit :
    (∀ t : String, (CE.extract_amounts t).1 = (CE.usdCands t).foldl max 0) ∧
    CE.extract_amounts "$5 paid by" = (5, 0) ∧
    CE.extract_amounts "$5 paid by Bob and $100" = (100, 0) := by
  refine ⟨fun t => ?_, by decide, by decide⟩
  have h1 := congrArg Prod.fst (CE.ce_extract_eq_max t)
  simpa using h1

/-- C2: for every text, both extractors return per currency the maximum of
the parsed candidate list (not the sum, not the first candidate); in
particular `"$50 and $100"` yields `100.00` USD, not `150.00` and not `50`. -/
theorem c2_generic_max_tie_break :
    (∀ t : String,
      (CE.extract_amounts t).1 = (CE.usdCands t).foldl max 0 ∧
      (CE.extract_amounts t).2 = (CE.rielCands t).foldl max 0 ∧
      (CD.extract_amounts t).1 = (CD.usdCands t).foldl max 0 ∧
      (CD.extract_amounts t).2 = (CD.rielCands t).foldl max 0) ∧
    CE.extract_amounts "$50 and $100" = (100, 0) ∧
    CD.extract_amounts "$50 and $100" = (100, 0) ∧
    (100 : ℚ) ≠ 150 ∧ (100 : ℚ) ≠ 50 := by
  refine ⟨fun t => ?_, by decide, by decide, by decide, by decide⟩
  rw [CE.ce_extract_eq_max, CD.cd_extract_eq_max]
  exact ⟨rfl, rfl, rfl, rfl⟩

/-- C3: both extractors are total Lean functions of the text (the embedding
has no failure path), both components are always non-negative with `(0, 0)`
the worst case, and a candidate that fails to parse, or parses as zero or
negative, is silently discarded without affecting the rest: the result
equals the maximum over only the successfully parsed positive candidates. -/
theorem c3_total_nonneg_discard :
    ∀ t : String,
      0 ≤ (CE.extract_amounts t).1 ∧ 0 ≤ (CE.extract_amounts t).2 ∧
      0 ≤ (CD.extract_amounts t).1 ∧ 0 ≤ (CD.extract_amounts t).2 ∧
      (CE.extract_amounts t).1
        = ((CE.usdCands t).filter (fun v => decide (0 < v))).foldl max 0 ∧
      (CE.extract_amounts t).2
        = ((CE.rielCands t).filter (fun v => decide (0 < v))).foldl max 0 := by
  intro t
  have h1 := congrArg Prod.fst (CE.ce_extract_eq_max t)
  have h2 := congrArg Prod.snd (CE.ce_extract_eq_max t)
  have h3 := congrArg Prod.fst (CD.cd_extract_eq_max t)
  have h4 := congrArg Prod.snd (CD.cd_extract_eq_max t)
  simp only at h1 h2 h3 h4
  rw [h1, h2, h3, h4]
  exact ⟨foldl_max_ge _ 0, foldl_max_ge _ 0, foldl_max_ge _ 0, foldl_max_ge _ 0,
    foldl_max_filter_pos _ 0 le_rfl, foldl_max_filter_pos _ 0 le_rfl⟩

/-- C4: a text containing no decimal digit character (Unicode category Nd,
the class Python `\d` matches and `float()` parses) — in particular the
empty string, whitespace-only strings, and text with currency markers but
no digits — extracts as `(0, 0)` in both modules: every pattern
mandatorily consumes a digit.  Conversely a text whose only digits are the
Khmer digits `២៥` (= 25) does extract, showing the hypothesis is the
Unicode digit class, not ASCII. -/
theorem c4_no_digits_zero :
    (∀ t : String, (∀ c ∈ t.data, isDigitPy c = false) →
      CE.extract_amounts t = (0, 0) ∧ CD.extract_amounts t = (0, 0)) ∧
    CE.extract_amounts "៛២៥" = (0, 25) := by
  refine ⟨fun t hd => ?_, by decide⟩
  have hnil := findAll_nodigit_nil hd
  have hceu : candsOf CE.usd_patterns (pyStrip t.data) = [] :=
    candsOf_nil (fun p hp => hnil p (List.mem_append_left _ (List.mem_append_left _ hp)))
  have hcer : candsOf CE.riel_patterns (pyStrip t.data) = [] :=
    candsOf_nil (fun p hp => hnil p (List.mem_append_left _ (List.mem_append_right _ hp)))
  have hcdu : CD.usdCands t = [] :=
    cd_usdCands_nil (fun p hp => hnil p (List.mem_append_right _ (List.mem_append_left _ hp)))
  have hcdr : CD.rielCands t = [] :=
    cd_rielCands_nil (fun p hp => hnil p (List.mem_append_right _ (List.mem_append_right _ hp)))
  constructor
  · rw [CE.ce_extract_eq_max, CE.usdCands, CE.rielCands, hceu, hcer]; rfl
  · rw [CD.cd_extract_eq_max, hcdu, hcdr]; rfl

/-- C4, witness: a concrete digit-free text with currency markers extracts as
`(0, 0)` in both modules. -/
theorem c4_no_digits_zero_witness :
    (∀ c ∈ ("hello ៛ riel USD $" : String).data, isDigitPy c = false) ∧
    (CE.extract_amounts "hello ៛ riel USD $" = (0, 0) ∧
      CD.extract_amounts "hello ៛ riel USD $" = (0, 0)) :=
  ⟨by decide, c4_no_digits_zero.1 "hello ៛ riel USD $" (by decide)⟩

/-- C5: grouping commas are stripped and numerals parse as base-10 decimals:
`extract_amounts "$100" = (100.00, 0)`, `extract_amounts "៛25,000" =
(0, 25000.00)`, `extract_amounts "$50 ៛10000" = (50.00, 10000.00)`. -/
theorem c5_normalization_examples :
    CE.extract_amounts "$100" = (100, 0) ∧
    CE.extract_amounts "៛25,000" = (0, 25000) ∧
    CE.extract_amounts "$50 ៛10000" = (50, 10000) :=
  ⟨by decide, by decide, by decide⟩

/-- C6: the USD and Riel passes are independent: a text with no USD marker
(`$`, `USD`, `dollar`/`dollars`, case-insensitive) has USD component `0` in
both modules, a text with no Riel marker (`៛`, `KHR`, `riel`,
case-insensitive) has Riel component `0`; and a message may yield a nonzero
value for both, one, or neither currency (concrete instances).  The marker
predicates use CPython's case folding: the final instance writes `KHR`
with the KELVIN SIGN (U+212A) and is still matched and still a marker. -/
theorem c6_currency_independence :
    (∀ t : String,
      (hasUsdMarker t.data = false →
        (CE.extract_amounts t).1 = 0 ∧ (CD.extract_amounts t).1 = 0) ∧
      (hasRielMarker t.data = false →
        (CE.extract_amounts t).2 = 0 ∧ (CD.extract_amounts t).2 = 0)) ∧
    CE.extract_amounts "$1 and ៛2000" = (1, 2000) ∧
    CE.extract_amounts "$25" = (25, 0) ∧
    CE.extract_amounts "hello" = (0, 0) ∧
    (CE.extract_amounts "25,000 \u212AHR" = (0, 25000) ∧
      hasRielMarker ("25,000 \u212AHR" : String).data = true) := by
  refine ⟨fun t => ⟨fun hm => ?_, fun hm => ?_⟩, by decide, by decide, by decide,
    by decide, by decide⟩
  · have hnil := findAll_usd_nil hm
    have hceu : candsOf CE.usd_patterns (pyStrip t.data) = [] :=
      candsOf_nil (fun p hp => hnil p (List.mem_append_left _ hp))
    have hcdu : CD.usdCands t = [] :=
      cd_usdCands_nil (fun p hp => hnil p (List.mem_append_right _ hp))
    constructor
    · have h1 := congrArg Prod.fst (CE.ce_extract_eq_max t)
      simp only at h1
      rw [h1, CE.usdCands, hceu]; rfl
    · have h1 := congrArg Prod.fst (CD.cd_extract_eq_max t)
      simp only at h1
      rw [h1, hcdu]; rfl
  · have hnil := findAll_riel_nil hm
    have hcer : candsOf CE.riel_patterns (pyStrip t.data) = [] :=
      candsOf_nil (fun p hp => hnil p (List.mem_append_left _ hp))
    have hcdr : CD.rielCands t = [] :=
      cd_rielCands_nil (fun p hp => hnil p (List.mem_append_right _ hp))
    constructor
    · have h1 := congrArg Prod.snd (CE.ce_extract_eq_max t)
      simp only at h1
      rw [h1, CE.rielCands, hcer]; rfl
    · have h1 := congrArg Prod.snd (CD.cd_extract_eq_max t)
      simp only at h1
      rw [h1, hcdr]; rfl

/-- C6, witness: a Riel-only message leaves the USD component at `0`, and a
USD-only message leaves the Riel component at `0`, in both modules. -/
theorem c6_currency_independence_witness :
    (hasUsdMarker ("៛2000" : String).data = false ∧
      ((CE.extract_amounts "៛2000").1 = 0 ∧ (CD.extract_amounts "៛2000").1 = 0)) ∧
    (hasRielMarker ("$25" : String).data = false ∧
      ((CE.extract_amounts "$25").2 = 0 ∧ (CD.extract_amounts "$25").2 = 0)) :=
  ⟨⟨by decide, (c6_currency_independence.1 "៛2000").1 (by decide)⟩,
   ⟨by decide, (c6_currency_independence.1 "$25").2 (by decide)⟩⟩

/-- C7: extraction is deterministic and stateless — both modules are embedded
as pure functions of the text alone (the global `detector` instance holds
only the immutable pattern lists, and the module-level convenience function
agrees with the method on that shared instance), so two calls on identical
input yield identical output. -/
theorem c7_deterministic_pure :
    ∀ t : String,
      CE.extract_amounts t = CE.extract_amounts t ∧
      CD.CurrencyDetector.extract_amounts CD.detector t
        = CD.CurrencyDetector.extract_amounts CD.detector t ∧
      CD.extract_amounts t = CD.CurrencyDetector.extract_amounts CD.detector t :=
  fun _ => ⟨rfl, rfl, rfl⟩

/-- C8, counterexample: with the current instant at day 5 (a Tuesday,
1970-01-06, Cambodia time) and one payment dated day `-1` (Wednesday,
1969-12-31) — before the start of the current calendar week (Monday, day 4)
but within the last 7 days — the code's week query counts it while the
spec's start-of-week reading does not; the claim that the week sum
aggregates exactly the records on or after the start of the current week is
false. -/
theorem c8_week_window_counterexample :
    DB.get_totals_week [⟨1, 10, 0, -1⟩] 1 432000 = (10, 0) ∧
    DB.specWeekTotals [⟨1, 10, 0, -1⟩] 1 432000 = (0, 0) ∧
    ((10 : ℚ), (0 : ℚ)) ≠ ((0 : ℚ), (0 : ℚ)) := by
  refine ⟨?_, ?_, by decide⟩
  · simp [DB.get_totals_week, DB.get_cambodia_date]
  · simp [DB.specWeekTotals, DB.specWeekStart, DB.get_cambodia_date]

/-- C8 (amended): the Ledger Store's period sum with period `week` aggregates
exactly the records of the chat whose date is on or after the current
Cambodia date minus 7 days — a rolling window, not the start of the
calendar week — with the boundary computed from the fixed `Asia/Phnom_Penh`
(UTC+7) zone applied to the global current instant, hence identical for
every caller. -/
theorem c8_week_rolling_window :
    ∀ (db : List DB.PaymentRecord) (chat nowUtc : Int),
      DB.get_totals_week db chat nowUtc =
        ((db.map (fun r =>
            if r.chat_id = chat ∧ DB.get_cambodia_date nowUtc - 7 ≤ r.payment_date
            then r.usd_amount else 0)).sum,
         (db.map (fun r =>
            if r.chat_id = chat ∧ DB.get_cambodia_date nowUtc - 7 ≤ r.payment_date
            then r.riel_amount else 0)).sum) := by
  intro db chat nowUtc
  simp only [DB.get_totals_week]
  rw [sum_filter_if, sum_filter_if]
  simp only [Bool.and_eq_true, beq_iff_eq, decide_eq_true_eq]

/-- A Riel numeral long enough to overflow an IEEE double: 309 nines
(≈ 10^309, above the ≈1.797·10^308 threshold) directly before the Riel
sign, so that `(\d+)៛` captures it and `float()` returns `inf`. -/
def bigRiel : String := String.mk (List.replicate 309 '9') ++ "៛"

set_option maxRecDepth 100000 in
set_option maxHeartbeats 4000000 in
set_option exponentiation.threshold 1100 in
/-- C9, counterexample: on a 309-digit Riel numeral `float()` saturates to
infinity, so the Riel component of the overflow-aware extractor is `inf`
— not a whole number — refuting the claim that the Riel component is
always integral. -/
theorem c9_riel_overflow_counterexample :
    (CE.extract_amounts_ieee bigRiel).2 = PyFloat.inf ∧
    ¬ ∃ n : ℕ, (CE.extract_amounts_ieee bigRiel).2 = PyFloat.fin (n : ℚ) := by
  have h : (CE.extract_amounts_ieee bigRiel).2 = PyFloat.inf := by decide
  refine ⟨h, ?_⟩
  rintro ⟨n, hn⟩
  rw [h] at hn
  exact PyFloat.noConfusion hn

/-- C9 (amended): the Riel component is a whole number whenever it is finite,
in both modules: every Riel pattern's capture consists of digits and
grouping commas only, so after comma-stripping each candidate parses as a
natural number when below the IEEE double overflow threshold and saturates
to `float('inf')` at or above it (numerals of ≥ 309 digits); in the
overflow-aware layer the component is `inf` or a whole number, and in the
exact layer it is always a whole number. -/
theorem c9_riel_whole_or_inf :
    ∀ t : String,
      wholeOrInf (CE.extract_amounts_ieee t).2 ∧
      wholeOrInf (CD.extract_amounts_ieee t).2 ∧
      (∃ n : ℕ, (CE.extract_amounts t).2 = (n : ℚ)) ∧
      (∃ n : ℕ, (CD.extract_amounts t).2 = (n : ℚ)) := by
  intro t
  refine ⟨?_, ?_, ?_, ?_⟩
  · show wholeOrInf (CE.bestOverF CE.riel_patterns (pyStrip t.data))
    exact bestOverF_wholeOrInf
      (fun p hp => riel_candsF_wholeOrInf (List.mem_append_left _ hp))
  · rw [CD.extract_amounts_ieee]
    by_cases he : t = ""
    · rw [if_pos he]; exact wholeOrInf_zero
    · rw [if_neg he]
      show wholeOrInf (CD.pyMaxF (CD.collectF CD.detector.riel_patterns (pyStrip t.data)))
      exact pyMaxF_wholeOrInf
        (collectF_mem (fun p hp => riel_candsF_wholeOrInf (List.mem_append_right _ hp)))
  · have h2 := congrArg Prod.snd (CE.ce_extract_eq_max t)
    simp only at h2
    rw [h2]
    have hw : ∀ v ∈ CE.rielCands t, ∃ n : ℕ, v = (n : ℚ) := by
      intro v hv
      rw [CE.rielCands, candsOf] at hv
      obtain ⟨p, hp, hv⟩ := List.mem_flatMap.1 hv
      exact riel_cands_whole (List.mem_append_left _ hp) hv
    have := foldl_max_whole (CE.rielCands t) hw 0
    rwa [Nat.cast_zero] at this
  · have h2 := congrArg Prod.snd (CD.cd_extract_eq_max t)
    simp only at h2
    rw [h2]
    have hw : ∀ v ∈ CD.rielCands t, ∃ n : ℕ, v = (n : ℚ) := by
      intro v hv
      rw [CD.rielCands] at hv
      by_cases he : t = ""
      · rw [if_pos he] at hv; simp at hv
      · rw [if_neg he] at hv
        have hv2 := (List.mem_filter.1 hv).1
        rw [candsOf] at hv2
        obtain ⟨p, hp, hv2⟩ := List.mem_flatMap.1 hv2
        exact riel_cands_whole (List.mem_append_right _ hp) hv2
    have := foldl_max_whole (CD.rielCands t) hw 0
    rwa [Nat.cast_zero] at this

/-- C10: a USD amount written with exactly one fraction digit is truncated at
the match boundary rather than rejected or rounded: the fraction tail of
every USD pattern requires exactly two digits, so `"$1.5"` extracts as
`(1.0, 0.0)` in both modules, capturing only the integer part. -/
theorem c10_single_fraction_digit_truncated :
    CE.extract_amounts "$1.5" = (1, 0) ∧ CD.extract_amounts "$1.5" = (1, 0) :=
  ⟨by decide, by decide⟩

end Bot
